import Mathlib

/-!
Verification of the `nb` notebook-to-script tool.

This file gives a shallow embedding of the core logic of `src/nb.py` and
settles the frozen claims about it.  The embedding works over `List Char`
views of Python strings so that every definition is executable and
kernel-computable:

* Python `content.split("\n")` is `splitNl` on `content.data`;
* Python `str.strip()` is `trimChars`;
* Python `"\n".join(xs)` is `joinNl`;
* the regexes `START_MARKER_RE = ^#\s*nb\.start(.*?)$` and
  `END_MARKER_RE = ^#\s*nb\.end\s*$` become the executable classifiers
  `isStartMarker` and `isEndMarker` (`\s` is `Char.isWhitespace`);
* `tomllib.loads` is an external stdlib collaborator and is abstracted as
  a `decode : List String → Option α` parameter (the code joins the
  collected comment payloads with newlines and hands them to `tomllib`);
* the filesystem state touched by the interpreter registry is the record
  `FS` (mapping file contents plus lock-file existence), and file
  modification times are integers.

Line numbers in doc comments refer to `src/nb.py`.
-/

namespace Nb

/-- Python `str.strip()` on a character list: drop whitespace from both ends. -/
def trimChars (cs : List Char) : List Char :=
  ((cs.dropWhile Char.isWhitespace).reverse.dropWhile Char.isWhitespace).reverse

/-- Python `content.split("\n")`: split a character list at every newline;
the result always has one more chunk than there are newlines. -/
def splitNl : List Char → List (List Char)
  | [] => [[]]
  | c :: rest =>
    if c = '\n' then [] :: splitNl rest
    else
      match splitNl rest with
      | [] => [[c]]
      | l :: ls => (c :: l) :: ls

/-- Python `"\n".join(lines)` for lines carried as `String`s. -/
def joinNl : List String → List Char
  | [] => []
  | [s] => s.data
  | s :: rest => s.data ++ '\n' :: joinNl rest

/-- Match a literal pattern at the front of a character list, returning the
remainder on success (the building block for the two marker regexes). -/
def stripChars : List Char → List Char → Option (List Char)
  | [], s => some s
  | _ :: _, [] => none
  | p :: ps, c :: cs => if c = p then stripChars ps cs else none

/-- `START_MARKER_RE.match(line)` for `^#\s*nb\.start(.*?)$` (nb.py line 17):
a `#` at column 0, any run of whitespace, the literal `nb.start`, then
arbitrary trailing text. -/
def isStartMarker (line : String) : Bool :=
  match line.data with
  | [] => false
  | c :: rest =>
    c == '#' && (stripChars "nb.start".data (rest.dropWhile Char.isWhitespace)).isSome

/-- `END_MARKER_RE.match(line)` for `^#\s*nb\.end\s*$` (nb.py line 18):
a `#` at column 0, whitespace, the literal `nb.end`, then only whitespace. -/
def isEndMarker (line : String) : Bool :=
  match line.data with
  | [] => false
  | c :: rest =>
    c == '#' &&
      match stripChars "nb.end".data (rest.dropWhile Char.isWhitespace) with
      | some r => r.all Char.isWhitespace
      | none => false

/-- Python `line.startswith("#")` (nb.py line 109). -/
def startsHash (line : String) : Bool :=
  match line.data with
  | '#' :: _ => true
  | _ => false

/-- Python `line[1:].strip()` (nb.py line 111), the comment payload that is
collected into the embedded TOML block; `none` when the payload is blank
(nb.py line 113 skips blank payloads). -/
def tomlContent (line : String) : Option String :=
  let c := trimChars (line.data.drop 1)
  if c = [] then none else some (String.mk c)

/-- Error message raised at nb.py line 105. -/
def nestedStartMsg : String := "Nested start markers are not supported"

/-- Error message raised at nb.py line 123. -/
def startAfterEndMsg : String := "Start marker found after end marker"

/-- Error message raised at nb.py line 125. -/
def nestedEndMsg : String := "Nested end markers are not supported"

/-- Error message raised at nb.py line 132. -/
def endBeforeStartMsg : String := "End marker found before start marker"

/-- Error message raised at nb.py lines 141-143 when the collected block is
not valid TOML. -/
def invalidTomlMsg : String :=
  "Invalid TOML config after start marker, make sure to add empty line after start marker and config lines"

/-- The mutable state of the `parse_file` loop (nb.py lines 93-97):
the `start_found` / `end_found` / `parsing_toml` flags and the two
accumulator lists. -/
structure PState where
  startFound : Bool
  endFound : Bool
  parsingToml : Bool
  scriptLines : List String
  tomlLines : List String
deriving Repr, DecidableEq

/-- The initial loop state of `parse_file`. -/
def pInit : PState := ⟨false, false, false, [], []⟩

/-- One iteration of the `parse_file` loop body (nb.py lines 99-132),
transcribed branch for branch. -/
def pstep (st : PState) (line : String) : Except String PState :=
  if st.startFound && !st.endFound then
    if isStartMarker line then .error nestedStartMsg
    else if isEndMarker line then .ok { st with endFound := true }
    else if st.parsingToml then
      if startsHash line then
        match tomlContent line with
        | some c => .ok { st with tomlLines := st.tomlLines ++ [c] }
        | none => .ok st
      else .ok { st with parsingToml := false, scriptLines := st.scriptLines ++ [line] }
    else .ok { st with scriptLines := st.scriptLines ++ [line] }
  else if st.startFound && st.endFound then
    if isStartMarker line then .error startAfterEndMsg
    else if isEndMarker line then .error nestedEndMsg
    else .ok st
  else
    if isStartMarker line then .ok { st with startFound := true, parsingToml := true }
    else if isEndMarker line then .error endBeforeStartMsg
    else .ok st

/-- Run the `parse_file` loop over a list of lines. -/
def prun (st : PState) : List String → Except String PState
  | [] => .ok st
  | l :: ls =>
    match pstep st l with
    | .error e => .error e
    | .ok st' => prun st' ls

/-- nb.py line 139: `tomllib.loads(...) if toml_lines else {}`, with
`tomllib.loads` abstracted as `decode` and the empty mapping as `emptyCfg`. -/
def configResult {α : Type} (emptyCfg : α) (decode : List String → Option α)
    (tl : List String) : Option α :=
  if tl = [] then some emptyCfg else decode tl

/-- `parse_file` on an already-split list of lines (nb.py lines 92-145):
run the loop, fall back to the whole input when no start marker was found
(line 135-136), decode the collected TOML block (lines 138-143), and return
the joined, stripped script text (line 145). -/
def parseLines {α : Type} (decode : List String → Option α) (emptyCfg : α)
    (ls : List String) : Except String (String × α) :=
  match prun pInit ls with
  | .error e => .error e
  | .ok st =>
    let sl := if st.startFound then st.scriptLines else ls
    match configResult emptyCfg decode st.tomlLines with
    | some cfg => .ok (String.mk (trimChars (joinNl sl)), cfg)
    | none => .error invalidTomlMsg

/-- `parse_file(content)` (nb.py line 92): split the raw converted text at
newlines, then process the lines. -/
def parse_file {α : Type} (decode : List String → Option α) (emptyCfg : α)
    (content : String) : Except String (String × α) :=
  parseLines decode emptyCfg ((splitNl content.data).map String.mk)

/-- The comment payloads that the loop collects from a region body: the
leading run of `#`-lines contributes its nonblank payloads. -/
def tomlOf (mid : List String) : List String :=
  (mid.takeWhile (fun l => startsHash l)).filterMap tomlContent

/-- Classification of a single line exactly as the loop does it: start
markers are checked before end markers (nb.py lines 100-101). -/
def classifyMarker (l : String) : Option Bool :=
  if isStartMarker l then some true
  else if isEndMarker l then some false
  else none

/-- The sequence of marker lines of an input, in order (`true` = start). -/
def markerSeq (ls : List String) : List Bool :=
  ls.filterMap classifyMarker

/-- Specification-side predicate for the start-marker syntax, written from
the words of the spec: a line opens the region when it is `#`, optional
whitespace, the literal `nb.start`, and arbitrary ignored trailing text. -/
def SpecStartLine (line : String) : Prop :=
  ∃ w t : List Char, (∀ c ∈ w, c.isWhitespace = true) ∧
    line.data = '#' :: (w ++ "nb.start".data ++ t)

/-- Specification-side predicate for the end-marker syntax, written from
the words of the spec: a line closes the region when it is exactly `#`,
optional whitespace, the literal `nb.end`, and optional trailing whitespace. -/
def SpecEndLine (line : String) : Prop :=
  ∃ w w' : List Char, (∀ c ∈ w, c.isWhitespace = true) ∧
    (∀ c ∈ w', c.isWhitespace = true) ∧
    line.data = '#' :: (w ++ "nb.end".data ++ w')

/-- Python dict lookup `mapping.get(name, default)` restricted to the key
part: first (unique) matching key wins. -/
def lookupName (k : String) : List (String × String) → Option String
  | [] => none
  | (k', v) :: rest => if k' = k then some v else lookupName k rest

/-- Python dict update `mapping[name] = path`: overwrite in place, append
when absent. -/
def insertKV (k v : String) : List (String × String) → List (String × String)
  | [] => [(k, v)]
  | (k', v') :: rest => if k' = k then (k', v) :: rest else (k', v') :: insertKV k v rest

/-- The slice of filesystem state the interpreter registry touches: the
persisted interpreter-mapping file (absent, or a JSON object modelled as an
association list) and whether the lock file exists. -/
structure FS where
  mappingFile : Option (List (String × String))
  lockFileExists : Bool
deriving Repr, DecidableEq

/-- `lock_file` (nb.py lines 56-64) opens the lock path with mode `w`,
creating the lock file; it never touches the mapping file. -/
def lock_acquire (fs : FS) : FS := { fs with lockFileExists := true }

/-- `get_interpreter_path(config, name)` (nb.py lines 67-74): under the
lock, return the default when the mapping file is absent, otherwise the
entry for `name` with the default as fallback.  Returns the result together
with the filesystem state after the call. -/
def get_interpreter_path (fs : FS) (defaultPath name : String) : String × FS :=
  let fs1 := lock_acquire fs
  match fs1.mappingFile with
  | none => (defaultPath, fs1)
  | some m => ((lookupName name m).getD defaultPath, fs1)

/-- `set_interpreter_path(config, name, path)` (nb.py lines 77-89): under
the lock, read the mapping (empty when absent), overwrite the entry for
`name`, and write the mapping back. -/
def set_interpreter_path (fs : FS) (name path : String) : FS :=
  let fs1 := lock_acquire fs
  { fs1 with mappingFile := some (insertKV name path (fs1.mappingFile.getD [])) }

/-- `os.path.join` for a relative second component. -/
def joinPath (a b : String) : String := a ++ "/" ++ b

/-- The notebook source path derived in `build_notebook` (nb.py line 202):
`os.path.join(config.notebooks_path, f"{name}.ipynb")`. -/
def notebook_path (notebooksPath name : String) : String :=
  joinPath notebooksPath (name ++ ".ipynb")

/-- The cache key derived in `build_notebook` (nb.py line 201):
`hashlib.md5(name.encode()).hexdigest()`, with the md5 hex digest
abstracted as `hash`.  Note that the input is the caller-supplied `name`,
not the notebook source path. -/
def name_hashed (hash : String → String) (name : String) : String := hash name

/-- The cached script path derived in `build_notebook` (nb.py line 203):
`os.path.join(config.cache_path, f"{name_hashed}.py")`. -/
def script_path (hash : String → String) (cachePath name : String) : String :=
  joinPath cachePath (name_hashed hash name ++ ".py")

/-- The cache key of a build request, as a function of the two quantities
that identify a notebook to `build_notebook` (nb.py line 199): the
configured `notebooks_path` and the caller-supplied `name`.  nb.py line 201
derives the key from the name alone; the notebooks path, and hence the
absolute source path of line 202, never enters the key. -/
def build_cache_key (hash : String → String) (notebooksPath name : String) : String :=
  name_hashed hash name

/-- nb.py line 210: the cached script mtime, with 0 substituted when the
cached file does not exist. -/
def cachedMtime (cache : Option Int) : Int :=
  match cache with
  | some m => m
  | none => 0

/-- The staleness test of `build_notebook` (nb.py lines 209-212): rebuild
exactly when `notebook_mtime > script_mtime`, where a missing cached script
contributes mtime 0. -/
def is_stale (srcMtime : Int) (cache : Option Int) : Bool :=
  decide (cachedMtime cache < srcMtime)

/-- Specification-side staleness predicate, written from the words of the
claim: stale when the cached artifact does not exist or the source mtime is
strictly greater; equal timestamps are fresh. -/
def specStale (srcMtime : Int) (cache : Option Int) : Bool :=
  match cache with
  | none => true
  | some m => decide (m < srcMtime)

/-! ### Helper lemmas about lists and the marker classifiers -/

theorem dropWhile_head_false {α : Type} (p : α → Bool) :
    ∀ (l : List α) (x : α) (xs : List α), l.dropWhile p = x :: xs → p x = false := by
  intro l
  induction l with
  | nil => intro x xs h; simp [List.dropWhile] at h
  | cons a t ih =>
    intro x xs h
    rw [List.dropWhile_cons] at h
    split at h
    · exact ih x xs h
    · rw [List.cons.injEq] at h
      rcases h with ⟨rfl, -⟩
      simp_all

theorem dropWhile_all_append (p : Char → Bool) (w : List Char) (a : Char) (l : List Char)
    (hw : ∀ c ∈ w, p c = true) (ha : p a = false) :
    (w ++ a :: l).dropWhile p = a :: l := by
  induction w with
  | nil => simp [List.dropWhile_cons, ha]
  | cons c w ih =>
    simp only [List.cons_append, List.dropWhile_cons]
    rw [if_pos (by simp [hw c (by simp)])]
    exact ih fun c hc => hw c (by simp [hc])

theorem stripChars_some : ∀ (pat s r : List Char), stripChars pat s = some r → s = pat ++ r := by
  intro pat
  induction pat with
  | nil =>
    intro s r h
    simp only [stripChars, Option.some.injEq] at h
    simp [h]
  | cons p ps ih =>
    intro s r h
    match s with
    | [] => simp [stripChars] at h
    | c :: cs =>
      rw [stripChars] at h
      split at h
      · rename_i hc
        subst hc
        simpa using ih cs r h
      · exact absurd h (by simp)

theorem stripChars_append_self : ∀ (pat t : List Char), stripChars pat (pat ++ t) = some t := by
  intro pat
  induction pat with
  | nil => intro t; rfl
  | cons p ps ih => intro t; simp [stripChars, ih]

theorem isStartMarker_nil {line : String} (hd : line.data = []) :
    isStartMarker line = false := by
  unfold isStartMarker; rw [hd]

theorem isStartMarker_cons {line : String} {c : Char} {rest : List Char}
    (hd : line.data = c :: rest) :
    isStartMarker line =
      (c == '#' && (stripChars "nb.start".data (rest.dropWhile Char.isWhitespace)).isSome) := by
  unfold isStartMarker; rw [hd]

theorem isEndMarker_nil {line : String} (hd : line.data = []) :
    isEndMarker line = false := by
  unfold isEndMarker; rw [hd]

theorem isEndMarker_cons {line : String} {c : Char} {rest : List Char}
    (hd : line.data = c :: rest) :
    isEndMarker line =
      (c == '#' &&
        match stripChars "nb.end".data (rest.dropWhile Char.isWhitespace) with
        | some r => r.all Char.isWhitespace
        | none => false) := by
  unfold isEndMarker; rw [hd]

theorem not_start_and_end (l : String) (h1 : isStartMarker l = true)
    (h2 : isEndMarker l = true) : False := by
  cases hd : l.data with
  | nil => rw [isStartMarker_nil hd] at h1; exact absurd h1 (by decide)
  | cons c rest =>
    rw [isStartMarker_cons hd, Bool.and_eq_true] at h1
    rw [isEndMarker_cons hd, Bool.and_eq_true] at h2
    obtain ⟨-, hsome⟩ := h1
    obtain ⟨t, ht⟩ := Option.isSome_iff_exists.mp hsome
    have hdec1 := stripChars_some _ _ _ ht
    obtain ⟨-, h2m⟩ := h2
    cases hsc : stripChars "nb.end".data (rest.dropWhile Char.isWhitespace) with
    | none => rw [hsc] at h2m; simp at h2m
    | some w' =>
      have hdec2 := stripChars_some _ _ _ hsc
      have heq : "nb.start".data ++ t = "nb.end".data ++ w' := by rw [← hdec1, ← hdec2]
      have e1 : "nb.start".data = 'n' :: 'b' :: '.' :: 's' :: 't' :: 'a' :: 'r' :: 't' :: [] := rfl
      have e2 : "nb.end".data = 'n' :: 'b' :: '.' :: 'e' :: 'n' :: 'd' :: [] := rfl
      rw [e1, e2] at heq
      simp only [List.cons_append, List.nil_append, List.cons.injEq] at heq
      exact absurd heq.2.2.2.1 (by decide)

theorem isStart_false_of_isEnd (l : String) (h : isEndMarker l = true) :
    isStartMarker l = false := by
  cases hs : isStartMarker l
  · rfl
  · exact absurd (not_start_and_end l hs h) (fun f => f)

/-! ### C9: the marker syntax is bit-exact -/

/-- C9 (confirmed): a line is classified as a start marker by `parse_file`
exactly when it is `#`, optional whitespace, the literal `nb.start`, and
arbitrary ignored trailing text; it is classified as an end marker exactly
when it is `#`, optional whitespace, the literal `nb.end`, and trailing
whitespace only.  No other line is classified as a marker. -/
theorem marker_syntax_exact (line : String) :
    (isStartMarker line = true ↔ SpecStartLine line) ∧
      (isEndMarker line = true ↔ SpecEndLine line) := by
  constructor
  · constructor
    · intro h
      cases hd : line.data with
      | nil => rw [isStartMarker_nil hd] at h; exact absurd h (by decide)
      | cons c rest =>
        rw [isStartMarker_cons hd, Bool.and_eq_true, beq_iff_eq] at h
        obtain ⟨hc, hsome⟩ := h
        obtain ⟨t, ht⟩ := Option.isSome_iff_exists.mp hsome
        have hdec := stripChars_some _ _ _ ht
        have hrest : rest = rest.takeWhile Char.isWhitespace ++ ("nb.start".data ++ t) := by
          conv_lhs => rw [← List.takeWhile_append_dropWhile (p := Char.isWhitespace) (l := rest)]
          rw [hdec]
        refine ⟨rest.takeWhile Char.isWhitespace, t, ?_, ?_⟩
        · intro ch hch; exact List.mem_takeWhile_imp hch
        · rw [hd, hc, List.append_assoc]
          exact congrArg _ hrest
    · rintro ⟨w, t, hw, hline⟩
      have hstep : "nb.start".data = 'n' :: "b.start".data := rfl
      rw [isStartMarker_cons hline]
      have hdw : (w ++ "nb.start".data ++ t).dropWhile Char.isWhitespace =
          "nb.start".data ++ t := by
        rw [hstep, List.append_assoc, List.cons_append]
        exact dropWhile_all_append _ w 'n' _ hw (by decide)
      rw [hdw, stripChars_append_self]
      rfl
  · constructor
    · intro h
      cases hd : line.data with
      | nil => rw [isEndMarker_nil hd] at h; exact absurd h (by decide)
      | cons c rest =>
        rw [isEndMarker_cons hd, Bool.and_eq_true, beq_iff_eq] at h
        obtain ⟨hc, h2⟩ := h
        cases hsc : stripChars "nb.end".data (rest.dropWhile Char.isWhitespace) with
        | none => rw [hsc] at h2; simp at h2
        | some r =>
          rw [hsc] at h2
          have hall : r.all Char.isWhitespace = true := h2
          have hdec := stripChars_some _ _ _ hsc
          have hrest : rest = rest.takeWhile Char.isWhitespace ++ ("nb.end".data ++ r) := by
            conv_lhs => rw [← List.takeWhile_append_dropWhile (p := Char.isWhitespace) (l := rest)]
            rw [hdec]
          refine ⟨rest.takeWhile Char.isWhitespace, r, ?_, ?_, ?_⟩
          · intro ch hch; exact List.mem_takeWhile_imp hch
          · intro ch hch; exact List.all_eq_true.mp hall ch hch
          · rw [hd, hc, List.append_assoc]
            exact congrArg _ hrest
    · rintro ⟨w, w', hw, hw', hline⟩
      have hstep : "nb.end".data = 'n' :: "b.end".data := rfl
      rw [isEndMarker_cons hline]
      have hdw : (w ++ "nb.end".data ++ w').dropWhile Char.isWhitespace =
          "nb.end".data ++ w' := by
        rw [hstep, List.append_assoc, List.cons_append]
        exact dropWhile_all_append _ w 'n' _ hw (by decide)
      rw [hdw, stripChars_append_self]
      show ('#' == '#' && w'.all Char.isWhitespace) = true
      simp only [Bool.and_eq_true, beq_iff_eq]
      exact ⟨trivial, List.all_eq_true.mpr hw'⟩

/-! ### Single-step lemmas for the `parse_file` loop -/

theorem pstep_pre_plain (st : PState) (l : String) (hs : st.startFound = false)
    (h1 : isStartMarker l = false) (h2 : isEndMarker l = false) :
    pstep st l = .ok st := by
  simp [pstep, hs, h1, h2]

theorem pstep_pre_start (st : PState) (l : String) (hs : st.startFound = false)
    (h1 : isStartMarker l = true) :
    pstep st l = .ok { st with startFound := true, parsingToml := true } := by
  simp [pstep, hs, h1]

theorem pstep_pre_end_err (st : PState) (l : String) (hs : st.startFound = false)
    (h1 : isStartMarker l = false) (h2 : isEndMarker l = true) :
    pstep st l = .error endBeforeStartMsg := by
  simp [pstep, hs, h1, h2]

theorem pstep_open_start_err (st : PState) (l : String) (hs : st.startFound = true)
    (he : st.endFound = false) (h1 : isStartMarker l = true) :
    pstep st l = .error nestedStartMsg := by
  simp [pstep, hs, he, h1]

theorem pstep_open_end (st : PState) (l : String) (hs : st.startFound = true)
    (he : st.endFound = false) (h1 : isStartMarker l = false) (h2 : isEndMarker l = true) :
    pstep st l = .ok { st with endFound := true } := by
  simp [pstep, hs, he, h1, h2]

theorem pstep_open_comment_some (st : PState) (l : String) (c : String)
    (hs : st.startFound = true) (he : st.endFound = false)
    (h1 : isStartMarker l = false) (h2 : isEndMarker l = false)
    (hp : st.parsingToml = true) (hh : startsHash l = true) (hc : tomlContent l = some c) :
    pstep st l = .ok { st with tomlLines := st.tomlLines ++ [c] } := by
  simp [pstep, hs, he, h1, h2, hp, hh, hc]

theorem pstep_open_comment_none (st : PState) (l : String)
    (hs : st.startFound = true) (he : st.endFound = false)
    (h1 : isStartMarker l = false) (h2 : isEndMarker l = false)
    (hp : st.parsingToml = true) (hh : startsHash l = true) (hc : tomlContent l = none) :
    pstep st l = .ok st := by
  simp [pstep, hs, he, h1, h2, hp, hh, hc]

theorem pstep_open_code (st : PState) (l : String)
    (hs : st.startFound = true) (he : st.endFound = false)
    (h1 : isStartMarker l = false) (h2 : isEndMarker l = false)
    (hp : st.parsingToml = true) (hh : startsHash l = false) :
    pstep st l = .ok { st with parsingToml := false, scriptLines := st.scriptLines ++ [l] } := by
  simp [pstep, hs, he, h1, h2, hp, hh]

theorem pstep_open_script (st : PState) (l : String)
    (hs : st.startFound = true) (he : st.endFound = false)
    (h1 : isStartMarker l = false) (h2 : isEndMarker l = false)
    (hp : st.parsingToml = false) :
    pstep st l = .ok { st with scriptLines := st.scriptLines ++ [l] } := by
  simp [pstep, hs, he, h1, h2, hp]

theorem pstep_closed_plain (st : PState) (l : String)
    (hs : st.startFound = true) (he : st.endFound = true)
    (h1 : isStartMarker l = false) (h2 : isEndMarker l = false) :
    pstep st l = .ok st := by
  simp [pstep, hs, he, h1, h2]

theorem pstep_closed_start_err (st : PState) (l : String)
    (hs : st.startFound = true) (he : st.endFound = true) (h1 : isStartMarker l = true) :
    pstep st l = .error startAfterEndMsg := by
  simp [pstep, hs, he, h1]

theorem pstep_closed_end_err (st : PState) (l : String)
    (hs : st.startFound = true) (he : st.endFound = true)
    (h1 : isStartMarker l = false) (h2 : isEndMarker l = true) :
    pstep st l = .error nestedEndMsg := by
  simp [pstep, hs, he, h1, h2]

/-! ### Run lemmas for the phases of the loop -/

theorem prun_cons_ok (st st' : PState) (l : String) (ls : List String)
    (h : pstep st l = .ok st') : prun st (l :: ls) = prun st' ls := by
  simp [prun, h]

theorem prun_cons_err (st : PState) (l : String) (ls : List String) (e : String)
    (h : pstep st l = .error e) : prun st (l :: ls) = .error e := by
  simp [prun, h]

theorem prun_pre : ∀ (pre : List String) (st : PState) (rest : List String),
    st.startFound = false →
    (∀ l ∈ pre, isStartMarker l = false ∧ isEndMarker l = false) →
    prun st (pre ++ rest) = prun st rest := by
  intro pre
  induction pre with
  | nil => intro st rest _ _; rfl
  | cons l pre ih =>
    intro st rest hs h
    have h1 := (h l (by simp)).1
    have h2 := (h l (by simp)).2
    rw [List.cons_append, prun_cons_ok st st l _ (pstep_pre_plain st l hs h1 h2)]
    exact ih st rest hs fun x hx => h x (by simp [hx])

theorem prun_toml : ∀ (cm : List String) (st : PState) (rest : List String),
    st.startFound = true → st.endFound = false → st.parsingToml = true →
    (∀ l ∈ cm, isStartMarker l = false ∧ isEndMarker l = false ∧ startsHash l = true) →
    prun st (cm ++ rest) =
      prun { st with tomlLines := st.tomlLines ++ cm.filterMap tomlContent } rest := by
  intro cm
  induction cm with
  | nil => intro st rest _ _ _ _; simp
  | cons l cm ih =>
    intro st rest hs he hp h
    obtain ⟨h1, h2, hh⟩ := h l (by simp)
    have htail : ∀ x ∈ cm, isStartMarker x = false ∧ isEndMarker x = false ∧
        startsHash x = true := fun x hx => h x (by simp [hx])
    rw [List.cons_append]
    cases hc : tomlContent l with
    | none =>
      rw [prun_cons_ok st st l _ (pstep_open_comment_none st l hs he h1 h2 hp hh hc)]
      rw [ih st rest hs he hp htail]
      simp [List.filterMap_cons, hc]
    | some c =>
      rw [prun_cons_ok st _ l _ (pstep_open_comment_some st l c hs he h1 h2 hp hh hc)]
      rw [ih { st with tomlLines := st.tomlLines ++ [c] } rest hs he hp htail]
      simp [List.filterMap_cons, hc, List.append_assoc]

theorem prun_script : ∀ (xs : List String) (st : PState) (rest : List String),
    st.startFound = true → st.endFound = false → st.parsingToml = false →
    (∀ l ∈ xs, isStartMarker l = false ∧ isEndMarker l = false) →
    prun st (xs ++ rest) =
      prun { st with scriptLines := st.scriptLines ++ xs } rest := by
  intro xs
  induction xs with
  | nil => intro st rest _ _ _ _; simp
  | cons l xs ih =>
    intro st rest hs he hp h
    obtain ⟨h1, h2⟩ := h l (by simp)
    rw [List.cons_append,
      prun_cons_ok st _ l _ (pstep_open_script st l hs he h1 h2 hp)]
    rw [ih { st with scriptLines := st.scriptLines ++ [l] } rest hs he hp
      fun x hx => h x (by simp [hx])]
    simp [List.append_assoc]

theorem prun_closed : ∀ (xs : List String) (st : PState) (rest : List String),
    st.startFound = true → st.endFound = true →
    (∀ l ∈ xs, isStartMarker l = false ∧ isEndMarker l = false) →
    prun st (xs ++ rest) = prun st rest := by
  intro xs
  induction xs with
  | nil => intro st rest _ _ _; rfl
  | cons l xs ih =>
    intro st rest hs he h
    obtain ⟨h1, h2⟩ := h l (by simp)
    rw [List.cons_append, prun_cons_ok st st l _ (pstep_closed_plain st l hs he h1 h2)]
    exact ih st rest hs he fun x hx => h x (by simp [hx])

theorem prun_open_skip : ∀ (xs : List String) (st : PState) (rest : List String),
    st.startFound = true → st.endFound = false →
    (∀ l ∈ xs, isStartMarker l = false ∧ isEndMarker l = false) →
    ∃ st', prun st (xs ++ rest) = prun st' rest ∧
      st'.startFound = true ∧ st'.endFound = false := by
  intro xs
  induction xs with
  | nil => intro st rest hs he _; exact ⟨st, rfl, hs, he⟩
  | cons l xs ih =>
    intro st rest hs he h
    obtain ⟨h1, h2⟩ := h l (by simp)
    have htail : ∀ x ∈ xs, isStartMarker x = false ∧ isEndMarker x = false :=
      fun x hx => h x (by simp [hx])
    rw [List.cons_append]
    cases hp : st.parsingToml with
    | false =>
      rw [prun_cons_ok st _ l _ (pstep_open_script st l hs he h1 h2 hp)]
      exact ih _ rest hs he htail
    | true =>
      cases hh : startsHash l with
      | false =>
        rw [prun_cons_ok st _ l _ (pstep_open_code st l hs he h1 h2 hp hh)]
        exact ih _ rest hs he htail
      | true =>
        cases hc : tomlContent l with
        | none =>
          rw [prun_cons_ok st st l _ (pstep_open_comment_none st l hs he h1 h2 hp hh hc)]
          exact ih st rest hs he htail
        | some c =>
          rw [prun_cons_ok st _ l _ (pstep_open_comment_some st l c hs he h1 h2 hp hh hc)]
          exact ih _ rest hs he htail

/-- Running the loop over a prefix-free single well-formed region: the final
state collects exactly the leading comment payloads as TOML source and the
remaining region lines as script lines. -/
theorem prun_one_pair (pre mid post : List String) (s en : String)
    (hpre : ∀ l ∈ pre, isStartMarker l = false ∧ isEndMarker l = false)
    (hmid : ∀ l ∈ mid, isStartMarker l = false ∧ isEndMarker l = false)
    (hpost : ∀ l ∈ post, isStartMarker l = false ∧ isEndMarker l = false)
    (hs : isStartMarker s = true) (hen : isEndMarker en = true) :
    ∃ b, prun pInit (pre ++ s :: (mid ++ en :: post)) =
      .ok ⟨true, true, b, mid.dropWhile (fun l => startsHash l), tomlOf mid⟩ := by
  have hsen : isStartMarker en = false := isStart_false_of_isEnd en hen
  have htwprop : ∀ l ∈ mid.takeWhile (fun l => startsHash l),
      isStartMarker l = false ∧ isEndMarker l = false ∧ startsHash l = true := by
    intro l hl
    have hlm : l ∈ mid := (List.takeWhile_sublist _).subset hl
    exact ⟨(hmid l hlm).1, (hmid l hlm).2, List.mem_takeWhile_imp hl⟩
  have e1 : prun pInit (pre ++ s :: (mid ++ en :: post)) =
      prun (⟨true, false, true, [], []⟩ : PState) (mid ++ en :: post) := by
    rw [prun_pre pre pInit _ rfl hpre]
    exact prun_cons_ok pInit ⟨true, false, true, [], []⟩ s _ (pstep_pre_start pInit s rfl hs)
  have e2 : prun (⟨true, false, true, [], []⟩ : PState) (mid ++ en :: post) =
      prun (⟨true, false, true, [], tomlOf mid⟩ : PState)
        (mid.dropWhile (fun l => startsHash l) ++ en :: post) := by
    conv_lhs => rw [← List.takeWhile_append_dropWhile (p := fun l => startsHash l) (l := mid),
      List.append_assoc]
    exact prun_toml _ _ _ rfl rfl rfl htwprop
  cases hdwc : mid.dropWhile (fun l => startsHash l) with
  | nil =>
    have e3 : prun (⟨true, false, true, [], tomlOf mid⟩ : PState) (en :: post) =
        prun (⟨true, true, true, [], tomlOf mid⟩ : PState) post :=
      prun_cons_ok _ _ en post
        (pstep_open_end ⟨true, false, true, [], tomlOf mid⟩ en rfl rfl hsen hen)
    have e4 : prun (⟨true, true, true, [], tomlOf mid⟩ : PState) post =
        .ok ⟨true, true, true, [], tomlOf mid⟩ := by
      have hc := prun_closed post (⟨true, true, true, [], tomlOf mid⟩ : PState) [] rfl rfl hpost
      rw [List.append_nil] at hc
      exact hc
    refine ⟨true, ?_⟩
    rw [e1, e2, hdwc, List.nil_append, e3, e4]
  | cons hline t =>
    have hhh : startsHash hline = false := dropWhile_head_false _ mid hline t hdwc
    have hmem : hline ∈ mid :=
      (List.dropWhile_sublist _).subset (by rw [hdwc]; simp)
    have htprop : ∀ l ∈ t, isStartMarker l = false ∧ isEndMarker l = false := by
      intro l hl
      exact hmid l ((List.dropWhile_sublist _).subset (by rw [hdwc]; simp [hl]))
    have e3 : prun (⟨true, false, true, [], tomlOf mid⟩ : PState) (hline :: (t ++ en :: post)) =
        prun (⟨true, false, false, [hline], tomlOf mid⟩ : PState) (t ++ en :: post) :=
      prun_cons_ok _ _ hline _
        (pstep_open_code ⟨true, false, true, [], tomlOf mid⟩ hline rfl rfl
          (hmid hline hmem).1 (hmid hline hmem).2 rfl hhh)
    have e4 : prun (⟨true, false, false, [hline], tomlOf mid⟩ : PState) (t ++ en :: post) =
        prun (⟨true, false, false, hline :: t, tomlOf mid⟩ : PState) (en :: post) :=
      prun_script t ⟨true, false, false, [hline], tomlOf mid⟩ (en :: post) rfl rfl rfl htprop
    have e5 : prun (⟨true, false, false, hline :: t, tomlOf mid⟩ : PState) (en :: post) =
        prun (⟨true, true, false, hline :: t, tomlOf mid⟩ : PState) post :=
      prun_cons_ok _ _ en post
        (pstep_open_end ⟨true, false, false, hline :: t, tomlOf mid⟩ en rfl rfl hsen hen)
    have e6 : prun (⟨true, true, false, hline :: t, tomlOf mid⟩ : PState) post =
        .ok ⟨true, true, false, hline :: t, tomlOf mid⟩ := by
      have hc := prun_closed post (⟨true, true, false, hline :: t, tomlOf mid⟩ : PState) []
        rfl rfl hpost
      rw [List.append_nil] at hc
      exact hc
    refine ⟨false, ?_⟩
    rw [e1, e2, hdwc, List.cons_append, e3, e4, e5, e6]

/-! ### Split/join round trip -/

theorem splitNl_ne_nil : ∀ cs : List Char, splitNl cs ≠ [] := by
  intro cs
  cases cs with
  | nil => simp [splitNl]
  | cons c rest =>
    by_cases hc : c = '\n'
    · simp [splitNl, hc]
    · simp only [splitNl, if_neg hc]
      cases h : splitNl rest <;> simp

theorem splitNl_cons_nl (rest : List Char) : splitNl ('\n' :: rest) = [] :: splitNl rest := by
  simp [splitNl]

theorem splitNl_cons_of_cons (c : Char) (rest l : List Char) (ls : List (List Char))
    (hc : c ≠ '\n') (h : splitNl rest = l :: ls) :
    splitNl (c :: rest) = (c :: l) :: ls := by
  simp [splitNl, hc, h]

theorem joinNl_splitNl : ∀ cs : List Char, joinNl ((splitNl cs).map String.mk) = cs := by
  intro cs
  induction cs with
  | nil => rfl
  | cons c rest ih =>
    by_cases hc : c = '\n'
    · subst hc
      rw [splitNl_cons_nl]
      cases h : splitNl rest with
      | nil => exact absurd h (splitNl_ne_nil rest)
      | cons l ls =>
        rw [h] at ih
        simp only [List.map_cons, joinNl]
        rw [List.nil_append]
        exact congrArg (fun x => '\n' :: x) ih
    · cases h : splitNl rest with
      | nil => exact absurd h (splitNl_ne_nil rest)
      | cons l ls =>
        rw [splitNl_cons_of_cons c rest l ls hc h]
        rw [h] at ih
        cases ls with
        | nil =>
          simp only [List.map_cons, List.map_nil, joinNl] at ih ⊢
          exact congrArg (fun x => c :: x) ih
        | cons l2 ls2 =>
          simp only [List.map_cons, joinNl] at ih ⊢
          rw [← ih]
          rfl

/-! ### C1: extraction from a single well-formed region -/

/-- C1 (confirmed): for an input with exactly one well-formed start/end
marker pair, whenever the collected configuration block decodes, the
returned script is the joined and whitespace-trimmed text of the in-region
lines with the consumed leading comment block removed (marker lines
excluded), and every script line comes from the region: no line from
before the start marker or after the end marker appears. -/
theorem parse_single_region {α : Type} (decode : List String → Option α) (emptyCfg cfg : α)
    (pre mid post : List String) (s en : String)
    (hpre : ∀ l ∈ pre, isStartMarker l = false ∧ isEndMarker l = false)
    (hmid : ∀ l ∈ mid, isStartMarker l = false ∧ isEndMarker l = false)
    (hpost : ∀ l ∈ post, isStartMarker l = false ∧ isEndMarker l = false)
    (hs : isStartMarker s = true) (hen : isEndMarker en = true)
    (hcfg : configResult emptyCfg decode (tomlOf mid) = some cfg) :
    parseLines decode emptyCfg (pre ++ s :: (mid ++ en :: post)) =
      .ok (String.mk (trimChars (joinNl (mid.dropWhile (fun l => startsHash l)))), cfg) ∧
      ∀ l ∈ mid.dropWhile (fun l => startsHash l), l ∈ mid := by
  obtain ⟨b, hb⟩ := prun_one_pair pre mid post s en hpre hmid hpost hs hen
  constructor
  · simp [parseLines, hb, hcfg]
  · intro l hl
    exact (List.dropWhile_sublist _).subset hl

theorem parse_single_region_witness :
    parseLines (fun _ => some 7) 0
        ["before", "# nb.start", "# k = 1", "code line", "# nb.end", "after"] =
      .ok ("code line", 7) := by
  have h := parse_single_region (fun _ => some 7) 0 7 ["before"] ["# k = 1", "code line"]
    ["after"] "# nb.start" "# nb.end" (by decide) (by decide) (by decide) (by decide)
    (by decide) rfl
  exact h.1

/-! ### C2: inputs without markers pass through whole -/

/-- C2 (amended, corrected): for an input with no start or end marker
lines, `parse_file` returns the whole input, trimmed of surrounding
whitespace, together with the empty configuration.  Cell-boundary
annotation lines are NOT stripped by `parse_file`; that filtering exists
only in the legacy variant (`src/main.py`, `transform_notebook`). -/
theorem parse_no_markers {α : Type} (decode : List String → Option α) (emptyCfg : α)
    (content : String)
    (h : ∀ l ∈ (splitNl content.data).map String.mk,
      isStartMarker l = false ∧ isEndMarker l = false) :
    parse_file decode emptyCfg content =
      .ok (String.mk (trimChars content.data), emptyCfg) := by
  have hp : prun pInit ((splitNl content.data).map String.mk) = .ok pInit := by
    have hc := prun_pre ((splitNl content.data).map String.mk) pInit [] rfl h
    rw [List.append_nil] at hc
    exact hc
  rw [parse_file]
  simp only [parseLines]
  rw [hp]
  simp [configResult, pInit, joinNl_splitNl]

/-- C2 counterexample: on an input whose only content is a cell-boundary
annotation line and a code line, `parse_file` keeps the annotation line in
the returned script, while the claim says annotation lines are stripped
(which would leave only the code line). -/
theorem parse_no_markers_cex :
    parse_file (fun _ => (none : Option Nat)) 0 "# In[1]:\nprint(1)" =
        .ok ("# In[1]:\nprint(1)", 0) ∧
      ("# In[1]:\nprint(1)" : String) ≠ "print(1)" := by
  constructor
  · rfl
  · decide

theorem parse_no_markers_witness :
    parse_file (fun _ => (none : Option Nat)) 0 "a\nb" = .ok ("a\nb", 0) :=
  parse_no_markers (fun _ => (none : Option Nat)) 0 "a\nb" (by decide)

/-! ### C3: malformed marker sequences are fatal -/

theorem parseLines_error {α : Type} (decode : List String → Option α) (emptyCfg : α)
    (ls : List String) (e : String) (h : prun pInit ls = .error e) :
    parseLines decode emptyCfg ls = .error e := by
  simp [parseLines, h]

theorem classify_some_true (l : String) (h : classifyMarker l = some true) :
    isStartMarker l = true := by
  cases hs : isStartMarker l
  · rw [classifyMarker, hs] at h
    split at h <;> simp_all
  · rfl

theorem classify_some_false (l : String) (h : classifyMarker l = some false) :
    isStartMarker l = false ∧ isEndMarker l = true := by
  cases hs : isStartMarker l <;> cases he : isEndMarker l <;>
    simp_all [classifyMarker]

theorem classify_none (l : String) (h : classifyMarker l = none) :
    isStartMarker l = false ∧ isEndMarker l = false := by
  cases hs : isStartMarker l <;> cases he : isEndMarker l <;>
    simp_all [classifyMarker]

theorem filterMap_split {β γ : Type} (f : β → Option γ) :
    ∀ (ls : List β) (b : γ) (ms : List γ), ls.filterMap f = b :: ms →
      ∃ p x r, ls = p ++ x :: r ∧ (∀ l ∈ p, f l = none) ∧ f x = some b ∧
        r.filterMap f = ms := by
  intro ls
  induction ls with
  | nil => intro b ms h; simp at h
  | cons a t ih =>
    intro b ms h
    cases ha : f a with
    | none =>
      rw [List.filterMap_cons, ha] at h
      obtain ⟨p, x, r, hsplit, hp, hx, hr⟩ := ih b ms h
      refine ⟨a :: p, x, r, by simp [hsplit], ?_, hx, hr⟩
      intro l hl
      rcases List.mem_cons.mp hl with h1 | h2
      · exact h1 ▸ ha
      · exact hp l h2
    | some c =>
      rw [List.filterMap_cons, ha] at h
      rw [List.cons.injEq] at h
      obtain ⟨hcb, hms⟩ := h
      exact ⟨[], a, t, by simp, by simp, by rw [ha, hcb], hms⟩

/-- C3 (confirmed): a second start marker inside the open region, an end
marker before any start marker, and any start or end marker after the
region has closed each make `parse_file` fail with the error message naming
that malformation; no script is returned. -/
theorem parse_malformed_markers {α : Type} (decode : List String → Option α) (emptyCfg : α)
    (ls : List String) :
    (∀ ms, markerSeq ls = true :: true :: ms →
        parseLines decode emptyCfg ls = .error nestedStartMsg) ∧
    (∀ ms, markerSeq ls = false :: ms →
        parseLines decode emptyCfg ls = .error endBeforeStartMsg) ∧
    (∀ b ms, markerSeq ls = true :: false :: b :: ms →
        parseLines decode emptyCfg ls =
          .error (if b then startAfterEndMsg else nestedEndMsg)) := by
  refine ⟨?_, ?_, ?_⟩
  · intro ms h
    rw [markerSeq] at h
    obtain ⟨p1, x, r, rfl, hp1, hx, hr⟩ := filterMap_split classifyMarker ls true (true :: ms) h
    have hxs := classify_some_true x hx
    obtain ⟨p2, y, r2, rfl, hp2, hy, hr2⟩ := filterMap_split classifyMarker r true ms hr
    have hys := classify_some_true y hy
    apply parseLines_error
    rw [prun_pre p1 pInit _ rfl fun l hl => classify_none l (hp1 l hl)]
    rw [prun_cons_ok pInit ⟨true, false, true, [], []⟩ x _ (pstep_pre_start pInit x rfl hxs)]
    obtain ⟨st2, hrun, hsf, hef⟩ := prun_open_skip p2 ⟨true, false, true, [], []⟩ (y :: r2)
      rfl rfl fun l hl => classify_none l (hp2 l hl)
    rw [hrun]
    exact prun_cons_err st2 y r2 nestedStartMsg (pstep_open_start_err st2 y hsf hef hys)
  · intro ms h
    rw [markerSeq] at h
    obtain ⟨p1, x, r, rfl, hp1, hx, hr⟩ := filterMap_split classifyMarker ls false ms h
    obtain ⟨hxs, hxe⟩ := classify_some_false x hx
    apply parseLines_error
    rw [prun_pre p1 pInit _ rfl fun l hl => classify_none l (hp1 l hl)]
    exact prun_cons_err pInit x r endBeforeStartMsg (pstep_pre_end_err pInit x rfl hxs hxe)
  · intro b ms h
    rw [markerSeq] at h
    obtain ⟨p1, x, r, rfl, hp1, hx, hr⟩ :=
      filterMap_split classifyMarker ls true (false :: b :: ms) h
    have hxs := classify_some_true x hx
    obtain ⟨p2, y, r2, rfl, hp2, hy, hr2⟩ :=
      filterMap_split classifyMarker r false (b :: ms) hr
    obtain ⟨hys, hye⟩ := classify_some_false y hy
    obtain ⟨p3, z, r3, rfl, hp3, hz, hr3⟩ := filterMap_split classifyMarker r2 b ms hr2
    apply parseLines_error
    rw [prun_pre p1 pInit _ rfl fun l hl => classify_none l (hp1 l hl)]
    rw [prun_cons_ok pInit ⟨true, false, true, [], []⟩ x _ (pstep_pre_start pInit x rfl hxs)]
    obtain ⟨st2, hrun, hsf, hef⟩ := prun_open_skip p2 ⟨true, false, true, [], []⟩
      (y :: (p3 ++ z :: r3)) rfl rfl fun l hl => classify_none l (hp2 l hl)
    rw [hrun]
    rw [prun_cons_ok st2 { st2 with endFound := true } y _
      (pstep_open_end st2 y hsf hef hys hye)]
    rw [prun_closed p3 { st2 with endFound := true } (z :: r3) hsf rfl
      fun l hl => classify_none l (hp3 l hl)]
    cases b with
    | true =>
      have hzs := classify_some_true z hz
      rw [prun_cons_err { st2 with endFound := true } z r3 startAfterEndMsg
        (pstep_closed_start_err { st2 with endFound := true } z hsf rfl hzs)]
      rfl
    | false =>
      obtain ⟨hzs, hze⟩ := classify_some_false z hz
      rw [prun_cons_err { st2 with endFound := true } z r3 nestedEndMsg
        (pstep_closed_end_err { st2 with endFound := true } z hsf rfl hzs hze)]
      rfl

theorem parse_malformed_markers_witness :
    parseLines (fun _ => (none : Option Nat)) 0 ["# nb.start", "code", "# nb.start"] =
        .error nestedStartMsg ∧
      parseLines (fun _ => (none : Option Nat)) 0 ["code", "# nb.end"] =
        .error endBeforeStartMsg ∧
      parseLines (fun _ => (none : Option Nat)) 0 ["# nb.start", "# nb.end", "# nb.start"] =
        .error startAfterEndMsg ∧
      parseLines (fun _ => (none : Option Nat)) 0 ["# nb.start", "# nb.end", "# nb.end"] =
        .error nestedEndMsg := by
  refine ⟨?_, ?_, ?_, ?_⟩
  · exact (parse_malformed_markers (fun _ => (none : Option Nat)) 0
      ["# nb.start", "code", "# nb.start"]).1 [] (by decide)
  · exact (parse_malformed_markers (fun _ => (none : Option Nat)) 0
      ["code", "# nb.end"]).2.1 [] (by decide)
  · exact (parse_malformed_markers (fun _ => (none : Option Nat)) 0
      ["# nb.start", "# nb.end", "# nb.start"]).2.2 true [] (by decide)
  · exact (parse_malformed_markers (fun _ => (none : Option Nat)) 0
      ["# nb.start", "# nb.end", "# nb.end"]).2.2 false [] (by decide)

/-! ### C4: the configuration block is the leading comment run -/

/-- C4 (amended, corrected): inside a single well-formed region the
collected configuration source is exactly the leading run of `#`-lines
after the start marker (with blank-payload comment lines skipped, not
stopping collection), collection stops at the first non-`#` line, and
every line from there on, comment-shaped or not, becomes script content:
config-then-interruption-then-config-again yields only the first block. -/
theorem config_block_first_run (pre mid post : List String) (s en : String)
    (hpre : ∀ l ∈ pre, isStartMarker l = false ∧ isEndMarker l = false)
    (hmid : ∀ l ∈ mid, isStartMarker l = false ∧ isEndMarker l = false)
    (hpost : ∀ l ∈ post, isStartMarker l = false ∧ isEndMarker l = false)
    (hs : isStartMarker s = true) (hen : isEndMarker en = true) :
    (prun pInit (pre ++ s :: (mid ++ en :: post))).map
        (fun st => (st.tomlLines, st.scriptLines)) =
      .ok (tomlOf mid, mid.dropWhile (fun l => startsHash l)) := by
  obtain ⟨b, hb⟩ := prun_one_pair pre mid post s en hpre hmid hpost hs hen
  rw [hb]
  rfl

/-- C4 counterexample: a blank comment line `#` inside the configuration
block does not stop collection; the config-shaped line after it is still
collected into the configuration source (`b = 2` below) and does not become
script content, while the claim says collection stops at the first blank
comment line and later comment lines become script content. -/
theorem config_block_blank_comment_cex :
    (prun pInit ["# nb.start", "# a = 1", "#", "# b = 2", "code", "# nb.end"]).map
        (fun st => (st.tomlLines, st.scriptLines)) =
      .ok (["a = 1", "b = 2"], ["code"]) := by
  rfl

theorem config_block_first_run_witness :
    (prun pInit ["# nb.start", "# x = 1", "code", "# y = 2", "# nb.end"]).map
        (fun st => (st.tomlLines, st.scriptLines)) =
      .ok (["x = 1"], ["code", "# y = 2"]) := by
  have h := config_block_first_run [] ["# x = 1", "code", "# y = 2"] [] "# nb.start"
    "# nb.end" (by decide) (by decide) (by decide) (by decide) (by decide)
  exact h

/-! ### C5: an undecodable configuration block is a descriptive fatal error -/

/-- C5 (confirmed): when the collected configuration block is nonempty and
fails to decode, `parse_file` fails with the fixed error message
(`invalidTomlMsg`), which instructs the caller to add an empty line after
the start marker and the configuration lines, rather than silently falling
back. -/
theorem invalid_toml_error {α : Type} (decode : List String → Option α) (emptyCfg : α)
    (pre mid post : List String) (s en : String)
    (hpre : ∀ l ∈ pre, isStartMarker l = false ∧ isEndMarker l = false)
    (hmid : ∀ l ∈ mid, isStartMarker l = false ∧ isEndMarker l = false)
    (hpost : ∀ l ∈ post, isStartMarker l = false ∧ isEndMarker l = false)
    (hs : isStartMarker s = true) (hen : isEndMarker en = true)
    (hne : tomlOf mid ≠ []) (hfail : decode (tomlOf mid) = none) :
    parseLines decode emptyCfg (pre ++ s :: (mid ++ en :: post)) =
      .error invalidTomlMsg := by
  obtain ⟨b, hb⟩ := prun_one_pair pre mid post s en hpre hmid hpost hs hen
  simp [parseLines, hb, configResult, hne, hfail]

theorem invalid_toml_error_witness :
    parseLines (fun _ => (none : Option Nat)) 0
        ["# nb.start", "# not a valid assignment", "code", "# nb.end"] =
      .error invalidTomlMsg :=
  invalid_toml_error (fun _ => (none : Option Nat)) 0 [] ["# not a valid assignment", "code"]
    [] "# nb.start" "# nb.end" (by decide) (by decide) (by decide) (by decide) (by decide)
    (by decide) rfl

/-! ### C6: the staleness check -/

/-- C6 (amended, corrected): for a source whose last-modified time is
positive, the rebuild test of `build_notebook` is stale exactly when the
cached artifact does not exist or the source mtime is strictly greater
than the cache mtime, and equal timestamps count as fresh.  (Without the
positivity assumption the two sides differ: the code substitutes mtime 0
for a missing artifact.) -/
theorem stale_check (srcMtime : Int) (cache : Option Int) (h : 0 < srcMtime) :
    is_stale srcMtime cache = specStale srcMtime cache := by
  cases cache with
  | none => simp [is_stale, specStale, cachedMtime, h]
  | some m => rfl

/-- C6 counterexample: with a source of last-modified time 0 and no cached
artifact, the code treats the cache as fresh (no rebuild), while the claim
says a missing cached artifact is always stale. -/
theorem stale_check_cex : is_stale 0 none = false ∧ specStale 0 none = true := by
  decide

theorem stale_check_witness :
    ((0 : Int) < 5 ∧ is_stale 5 none = specStale 5 none) ∧
      ((0 : Int) < 7 ∧ is_stale 7 (some 7) = specStale 7 (some 7)) :=
  ⟨⟨by decide, stale_check 5 none (by decide)⟩,
    ⟨by decide, stale_check 7 (some 7) (by decide)⟩⟩

/-! ### C7: the interpreter registry -/

theorem lookupName_insert_self (k v : String) :
    ∀ m : List (String × String), lookupName k (insertKV k v m) = some v := by
  intro m
  induction m with
  | nil => simp [insertKV, lookupName]
  | cons kv rest ih =>
    obtain ⟨q, w⟩ := kv
    by_cases hk : q = k
    · simp [insertKV, hk, lookupName]
    · simp [insertKV, hk, lookupName, ih]

theorem lookupName_insert_other (k v n2 : String) (h : n2 ≠ k) :
    ∀ m : List (String × String), lookupName n2 (insertKV k v m) = lookupName n2 m := by
  intro m
  induction m with
  | nil => simp [insertKV, lookupName, Ne.symm h]
  | cons kv rest ih =>
    obtain ⟨q, w⟩ := kv
    by_cases h1 : q = k
    · subst h1
      simp [insertKV, lookupName, Ne.symm h]
    · by_cases h2 : q = n2 <;> simp [insertKV, lookupName, h1, h2, ih, h]

/-- C7 (confirmed): with no mapping file, `get_interpreter_path` returns
the configured default; after `set_interpreter_path name p`, reading `name`
returns `p` whatever default is supplied; and `set_interpreter_path`
preserves the entry of every other name. -/
theorem interpreter_registry_laws (fs : FS) (d d2 p name n2 : String) :
    (fs.mappingFile = none → (get_interpreter_path fs d name).1 = d) ∧
      (get_interpreter_path (set_interpreter_path fs name p) d2 name).1 = p ∧
      (n2 ≠ name →
        lookupName n2 ((set_interpreter_path fs name p).mappingFile.getD []) =
          lookupName n2 (fs.mappingFile.getD [])) := by
  refine ⟨?_, ?_, ?_⟩
  · intro h
    simp [get_interpreter_path, lock_acquire, h]
  · simp [get_interpreter_path, set_interpreter_path, lock_acquire, lookupName_insert_self]
  · intro h
    simp [set_interpreter_path, lock_acquire, lookupName_insert_other name p n2 h]

theorem interpreter_registry_laws_witness :
    (get_interpreter_path ⟨none, false⟩ "/usr/bin/ipython" "nb1").1 = "/usr/bin/ipython" ∧
      (get_interpreter_path (set_interpreter_path ⟨some [("nb2", "/y")], false⟩ "nb1" "/x")
        "/d" "nb1").1 = "/x" ∧
      lookupName "nb2"
          ((set_interpreter_path ⟨some [("nb2", "/y")], false⟩ "nb1" "/x").mappingFile.getD []) =
        lookupName "nb2" ((FS.mk (some [("nb2", "/y")]) false).mappingFile.getD []) :=
  ⟨(interpreter_registry_laws ⟨none, false⟩ "/usr/bin/ipython" "/d" "/x" "nb1" "nb2").1 rfl,
    (interpreter_registry_laws ⟨some [("nb2", "/y")], false⟩ "u" "/d" "/x" "nb1" "nb2").2.1,
    (interpreter_registry_laws ⟨some [("nb2", "/y")], false⟩ "u" "/d" "/x" "nb1" "nb2").2.2
      (by decide)⟩

/-! ### C8: the cache key ignores the source path -/

/-- C8 (code bug evidence): two build requests whose notebooks live at
different absolute source paths (`/a/x.ipynb` and `/b/x.ipynb`) receive
the same cache key under EVERY hash function, because `build_notebook`
hashes only the caller-supplied name; so the collision is not a hash
collision, contradicting the claim that the key is a function of the
absolute source path colliding only by hash collision.  The tests of the
repository (`tests/test_nb.py`, `TestBuildNotebook`) hash the notebook
path instead, agreeing with the claim and contradicting the code. -/
theorem cache_key_ignores_source_path (hash : String → String) :
    notebook_path "/a" "x" ≠ notebook_path "/b" "x" ∧
      build_cache_key hash "/a" "x" = build_cache_key hash "/b" "x" :=
  ⟨by decide, rfl⟩

/-! ### C10: reading the registry never touches the mapping file -/

/-- C10 (confirmed): `get_interpreter_path` leaves the interpreter-mapping
file exactly as it found it — same existence, same contents — for every
prior state of the file (it creates only the lock file). -/
theorem get_preserves_mapping (fs : FS) (d name : String) :
    ((get_interpreter_path fs d name).2).mappingFile = fs.mappingFile := by
  cases h : fs.mappingFile <;> simp [get_interpreter_path, lock_acquire, h]

end Nb
